import Mathlib

/-!
Verification of torsniff: metadata parsing, persistence and the worker supervisor.

A shallow embedding of `torsniff.go`.

Conventions of the embedding.

* Go strings and byte slices are byte sequences.  They are modelled by Lean
  strings whose characters stand for the bytes; the program only compares,
  concatenates, joins and scans them for `/` and `.`.
* Go `int64` values are modelled by `Int`; an `int64` addition is followed by
  `wrapInt64`, the wrap-around modulo `2^64`.
* A Go `interface{}` value produced by the bencode decoder is a `BVal`; a Go
  type assertion `v.(T)` is a match on the constructor.
* The bencode decoder, the JSON encoder, the metadata fetch and the blacklist
  are not part of `torsniff.go`; they are parameters of the definitions below.
-/

set_option linter.unusedVariables false

namespace Torsniff

/-! ## Values produced by the bencode decoder -/

/-- A decoded bencode value, as stored in a Go `interface{}`: `int64`, `string`,
`[]interface{}` or `map[string]interface{}`.  The constructor `uint` stands for
an integer the decoder could not store in an `int64` (it has another dynamic
type, so the assertion `.(int64)` fails on it). -/
inductive BVal where
  | int (n : Int)
  | uint (n : Nat)
  | str (s : String)
  | list (l : List BVal)
  | dict (d : List (String × BVal))

/-- A Go `map[string]interface{}`, kept as an association list in which the
first entry of a key is the one the map holds. -/
abbrev Dict := List (String × BVal)

/-- Map indexing `d[key]`; `none` is the nil interface of a missing key. -/
def Dict.get : Dict → String → Option BVal
  | [], _ => none
  | (k, v) :: rest, key => if k = key then some v else Dict.get rest key

/-- The type assertion `v.(int64)` on the result of a map index; `none` is
`ok == false`. -/
def asInt64 : Option BVal → Option Int
  | some (.int n) => some n
  | _ => none

/-- The type assertion `v.(string)`. -/
def asString : Option BVal → Option String
  | some (.str s) => some s
  | _ => none

/-- The type assertion `v.([]interface{})`. -/
def asList : Option BVal → Option (List BVal)
  | some (.list l) => some l
  | _ => none

/-- Byte-wise `<` on strings, the order in which `fmt` prints map keys. -/
def bytesLess : List Char → List Char → Bool
  | _, [] => false
  | [], _ :: _ => true
  | a :: as, b :: bs =>
    if a.toNat < b.toNat then true
    else if b.toNat < a.toNat then false
    else bytesLess as bs

/-- Insertion of a printed map entry into the key-sorted entries of the
later association-list entries; an earlier entry of the same key replaces it. -/
def insertEntry (e : String × String) : List (String × String) → List (String × String)
  | [] => [e]
  | x :: xs =>
    if bytesLess e.1.data x.1.data then e :: x :: xs
    else if e.1 = x.1 then e :: xs
    else x :: insertEntry e xs

mutual
/-- Go `fmt.Sprint(v)` on a decoded value: a string is printed as it is, an
integer in decimal, a slice as `[a b]`, a map as `map[k:v k:v]` with sorted keys. -/
def Sprint : BVal → String
  | .int n => toString n
  | .uint n => toString n
  | .str s => s
  | .list l => "[" ++ " ".intercalate (SprintList l) ++ "]"
  | .dict d => "map[" ++ " ".intercalate ((SprintDict d).map fun e => e.1 ++ ":" ++ e.2) ++ "]"
/-- The elements of a slice, each printed with `Sprint`. -/
def SprintList : List BVal → List String
  | [] => []
  | v :: vs => Sprint v :: SprintList vs
/-- The entries of a map, each value printed with `Sprint`, sorted by key. -/
def SprintDict : List (String × BVal) → List (String × String)
  | [] => []
  | e :: es => insertEntry (e.1, Sprint e.2) (SprintDict es)
end

/-! ## `parseTorrent` -/

/-- The `int64` value of an exact integer result: wrap-around modulo `2^64`
into the range from `-2^63` to `2^63 - 1`. -/
def wrapInt64 (x : Int) : Int :=
  (x + 9223372036854775808) % 18446744073709551616 - 9223372036854775808

/-- Go `type tfile struct`. -/
structure tfile where
  name : String
  length : Int
deriving DecidableEq, Repr

/-- Go `type TFile struct`, the JSON view of a file. -/
structure TFile where
  Name : String
  Length : Int
deriving DecidableEq, Repr

/-- Go `type torrent struct`. -/
structure torrent where
  infohashHex : String
  name : String
  length : Int
  pieceLength : Int
  files : List tfile
  TFiles : List TFile
deriving DecidableEq, Repr

/-- The name of one listed file: `fmt.Sprint` of every path element, joined
with `strings.Join(name, "/")`. -/
def joinPath (inter : List BVal) : String :=
  "/".intercalate (SprintList inter)

/-- The closure `extractFiles` of `parseTorrent`.  The state is the captured
variable `totalSize` together with the torrent `t` being filled in. -/
def extractFiles (st : Int × torrent) (file : Dict) : Int × torrent :=
  let filename : String :=
    match asList (file.get "path.utf-8") with
    | some inter => joinPath inter
    | none =>
      match asList (file.get "path") with
      | some inter => joinPath inter
      | none => ""
  let lengths : Int × Int :=
    match asInt64 (file.get "length") with
    | some length => (length, wrapInt64 (st.1 + length))
    | none => (0, st.1)
  (lengths.2,
    { st.2 with
      files := st.2.files ++ [{ name := filename, length := lengths.1 }]
      TFiles := st.2.TFiles ++ [{ Name := filename, Length := lengths.1 }] })

/-- The loop `for _, file := range files` of `parseTorrent`: entries that are
not dictionaries are skipped. -/
def rangeFiles (st : Int × torrent) : List BVal → Int × torrent
  | [] => st
  | .dict f :: files => rangeFiles (extractFiles st f) files
  | _ :: files => rangeFiles st files

/-- Go `parseTorrent(meta, infohashHex)`; `decode` is `bencode.Decode`.  The
result is `.error err` for the Go result `(nil, err)` and `.ok t` for `(t, nil)`. -/
def parseTorrent (decode : String → Except String Dict) (metadata : String)
    (infohashHex : String) : Except String torrent :=
  match decode metadata with
  | .error err => .error err
  | .ok dict =>
    let t : torrent :=
      { infohashHex := infohashHex, name := "", length := 0, pieceLength := 0,
        files := [], TFiles := [] }
    let t : torrent :=
      match asString (dict.get "name.utf-8") with
      | some name => { t with name := name }
      | none =>
        match asString (dict.get "name") with
        | some name => { t with name := name }
        | none => t
    let t : torrent :=
      match asInt64 (dict.get "length") with
      | some length => { t with length := length }
      | none => t
    let t : torrent :=
      match asInt64 (dict.get "piece length") with
      | some pieceLength => { t with pieceLength := pieceLength }
      | none => t
    let st : Int × torrent :=
      match asList (dict.get "files") with
      | some files => rangeFiles (0, t) files
      | none => (0, t)
    let totalSize := st.1
    let t := st.2
    let t : torrent := if t.length = 0 then { t with length := totalSize } else t
    let t : torrent :=
      if t.files.length = 0 then
        { t with
          files := t.files ++ [{ name := t.name, length := t.length }]
          TFiles := t.TFiles ++ [{ Name := t.name, Length := t.length }] }
      else t
    .ok t

/-- A decoder defined on three sample info dictionaries (single-file
`ubuntu.iso`, multi-file `album`, and an `album` whose file has both `path` and
`path.utf-8`); it rejects everything else. -/
def sampleDecode (metadata : String) : Except String Dict :=
  if metadata = "d6:lengthi2048e4:name10:ubuntu.iso12:piece lengthi512ee" then
    .ok [("length", .int 2048), ("name", .str "ubuntu.iso"), ("piece length", .int 512)]
  else if metadata = "d5:filesld6:lengthi100e4:pathl6:a.flaceed6:lengthi200e4:pathl3:sub6:b.flaceee4:name5:album12:piece lengthi16384ee" then
    .ok [("files", .list [
            .dict [("length", .int 100), ("path", .list [.str "a.flac"])],
            .dict [("length", .int 200), ("path", .list [.str "sub", .str "b.flac"])]]),
         ("name", .str "album"), ("piece length", .int 16384)]
  else if metadata = "d5:filesld6:lengthi100e4:pathl6:a.flace10:path.utf-8l6:b.flaceee4:name5:album12:piece lengthi16384ee" then
    .ok [("files", .list [
            .dict [("length", .int 100), ("path", .list [.str "a.flac"]),
                   ("path.utf-8", .list [.str "b.flac"])]]),
         ("name", .str "album"), ("piece length", .int 16384)]
  else .error "bencode data must begin with a dictionary"

/-! ## The table `info` and `saveTorrent` -/

/-- One row of the table `info`, with the columns the insert statement fills.
The auto-increment `id` is left out: the program only prints it. -/
structure Row where
  hash : String
  name : String
  piece_length : Int
  files_number : Nat
  total_length : Int
  files : String
deriving DecidableEq, Repr

/-- The rows of the table `info`. -/
abbrev Store := List Row

/-- What `saveTorrent` cannot control during one call: the schema of the table,
failures of the database connection, and the rows other workers commit
between its query and its insert. -/
structure DbEnv where
  /-- The table declares `hash` unique, so an insert of a present hash fails. -/
  uniqueHash : Bool
  /-- The query fails with an error other than `sql.ErrNoRows`. -/
  queryFails : Bool
  /-- Preparing the insert statement fails (`stmt` is nil). -/
  prepareFails : Bool
  /-- Executing the insert fails for a reason other than a key collision. -/
  execFails : Bool
  /-- Rows committed by other workers between the query and the insert. -/
  concurrent : Store → Store

/-- The environment of a call that runs alone on a healthy connection. -/
def DbEnv.quiet (uniqueHash : Bool) : DbEnv :=
  { uniqueHash := uniqueHash, queryFails := false, prepareFails := false,
    execFails := false, concurrent := fun db => db }

/-- The error of `rs.Scan(&count)`. -/
inductive ScanResult where
  | errNoRows
  | found
  | failed
deriving DecidableEq, Repr

/-- A non-nil error of `stmt.Exec`. -/
inductive SqlError where
  | duplicateEntry
  | other
deriving DecidableEq, Repr

/-- How a Go call ends: it returns a value or it panics. -/
inductive Outcome (α : Type) where
  | returned (a : α)
  | panicked
deriving DecidableEq, Repr

/-- Whether the table has a row with this hash. -/
def hasHash (db : Store) (infohashHex : String) : Bool :=
  db.any fun r => decide (r.hash = infohashHex)

/-- The rows of the table with this hash. -/
def rowsWith (db : Store) (infohashHex : String) : List Row :=
  db.filter fun r => decide (r.hash = infohashHex)

/-- The statement `select id from info where hash=?` followed by `Scan`. -/
def scan (env : DbEnv) (db : Store) (infohashHex : String) : ScanResult :=
  if env.queryFails then .failed
  else if hasHash db infohashHex then .found
  else .errNoRows

/-- The statement `insert into info (...) values (...)`. -/
def exec (env : DbEnv) (db : Store) (row : Row) : Except SqlError Store :=
  if env.execFails then .error .other
  else if env.uniqueHash && hasHash db row.hash then .error .duplicateEntry
  else .ok (db ++ [row])

/-- Go `(*torsniff).saveTorrent(infohashHex, data, torrent)`; `marshal` is
`json.Marshal` on `torrent.TFiles`, and `tor = none` is a nil `*torrent`.  The
result is the returned error (`none` for nil) or a panic, and the table after
the call. -/
def saveTorrent (marshal : List TFile → String) (env : DbEnv) (db : Store)
    (infohashHex : String) (data : String) (tor : Option torrent) :
    Outcome (Option SqlError) × Store :=
  match scan env db infohashHex with
  | .found => (.returned none, db)
  | .failed => (.returned none, db)
  | .errNoRows =>
    match tor with
    | none => (.panicked, db)
    | some t =>
      let jsonBytes := marshal t.TFiles
      let db := env.concurrent db
      if env.prepareFails then (.panicked, db)
      else
        match exec env db
            { hash := infohashHex, name := t.name, piece_length := t.pieceLength,
              files_number := t.files.length, total_length := t.length,
              files := jsonBytes } with
        | .error err => (.returned (some err), db)
        | .ok db => (.returned none, db)

/-! ## `work` -/

/-- The fields of an announcement that `work` reads; `peer` is `ac.peer.String()`. -/
structure announcement where
  infohash : String
  infohashHex : String
  peer : String
deriving DecidableEq, Repr

/-- The two methods of `*blackList` that `work` calls. -/
structure BlackListOps (β : Type) where
  has : β → String → Bool
  add : β → String → β

/-- The state `work` leaves behind. -/
structure WorkResult (β : Type) where
  /-- Whether the job returned or panicked. -/
  exit : Outcome Unit
  blacklist : β
  db : Store
  /-- The number of values in the channel `tokens` after the deferred receive. -/
  tokens : Nat
  /-- The torrent printed by `log.Println(torrent)`, if any. -/
  logged : Option torrent

/-- Go `(*torsniff).work(ac, tokens)`.  `fetch infohash peerAddr` is the result
of `newMetaWire(infohash, peerAddr, timeout).fetch()`.  The deferred receive
from `tokens` runs on every exit, a panic included. -/
def work {β : Type} (ops : BlackListOps β) (decode : String → Except String Dict)
    (marshal : List TFile → String) (fetch : String → String → Except String String)
    (env : DbEnv) (blacklist : β) (db : Store) (tokens : Nat) (ac : announcement) :
    WorkResult β :=
  let peerAddr := ac.peer
  if ops.has blacklist peerAddr then
    { exit := .returned (), blacklist := blacklist, db := db, tokens := tokens - 1,
      logged := none }
  else
    match fetch ac.infohash peerAddr with
    | .error _ =>
      { exit := .returned (), blacklist := ops.add blacklist peerAddr, db := db,
        tokens := tokens - 1, logged := none }
    | .ok metadata =>
      let parsed := parseTorrent decode metadata ac.infohashHex
      let tor : Option torrent :=
        match parsed with
        | .ok t => some t
        | .error _ => none
      match saveTorrent marshal env db ac.infohashHex metadata tor with
      | (.panicked, db) =>
        { exit := .panicked, blacklist := blacklist, db := db, tokens := tokens - 1,
          logged := none }
      | (.returned (some _), db) =>
        { exit := .returned (), blacklist := blacklist, db := db, tokens := tokens - 1,
          logged := none }
      | (.returned none, db) =>
        match parsed with
        | .error _ =>
          { exit := .returned (), blacklist := blacklist, db := db,
            tokens := tokens - 1, logged := none }
        | .ok _ =>
          { exit := .returned (), blacklist := blacklist, db := db,
            tokens := tokens - 1, logged := tor }

/-- A blacklist kept as the list of its addresses, used in the examples. -/
def listBlackList : BlackListOps (List String) :=
  { has := fun b addr => b.contains addr, add := fun b addr => addr :: b }

/-- A JSON encoder for the examples: `[{"name":"a","length":1},...]` without
escaping. -/
def sampleMarshal (fs : List TFile) : String :=
  "[" ++ ",".intercalate (fs.map fun f =>
    "\x7b\"name\":\"" ++ f.Name ++ "\",\"length\":" ++ toString f.Length ++ "\x7d") ++ "]"

/-! ## The supervisor loop of `run` -/

/-- The supervisor state: how many values the channel `tokens` holds and the
jobs `go t.work(ac, tokens)` started and not yet finished. -/
structure Supervisor where
  tokens : Nat
  jobs : List announcement
deriving DecidableEq, Repr

/-- The two events of the supervisor. -/
inductive Event where
  /-- The statements `tokens <- struct{}{}; go t.work(ac, tokens)`. -/
  | dispatch (ac : announcement)
  /-- The deferred `<-tokens` of the job at position `i`, which ends it. -/
  | complete (i : Nat)
deriving DecidableEq, Repr

/-- One step.  The send blocks while the channel holds `maxPeers` values; the
receive blocks while it is empty; `none` means the event cannot happen. -/
def step (maxPeers : Nat) (s : Supervisor) : Event → Option Supervisor
  | .dispatch ac =>
    if s.tokens < maxPeers then some { tokens := s.tokens + 1, jobs := ac :: s.jobs }
    else none
  | .complete i =>
    if i < s.jobs.length ∧ 0 < s.tokens then
      some { tokens := s.tokens - 1, jobs := s.jobs.eraseIdx i }
    else none

/-- The state after a sequence of events, from `s`. -/
def runEvents (maxPeers : Nat) (s : Supervisor) : List Event → Option Supervisor
  | [] => some s
  | e :: es =>
    match step maxPeers s e with
    | none => none
    | some s1 => runEvents maxPeers s1 es

/-- The state in which `run` enters its loop: `make(chan struct{}, maxPeers)`
is empty and no job runs. -/
def Supervisor.init : Supervisor := { tokens := 0, jobs := [] }

/-! ## `torrentPath` and Go `path.Join` -/

/-- The inner loop of a `..` element of `path.Clean`, after `out.w--`:
`for out.w > dotdot && out.index(out.w) != '/' { out.w-- }`.  The buffer is kept
reversed (last byte first); `c` is the byte at index `out.w`. -/
def backtrack (dotdot : Nat) : Char → List Char → List Char
  | _, [] => []
  | c, d :: out =>
    if dotdot < (d :: out).length ∧ c ≠ '/' then backtrack dotdot d out
    else d :: out

/-- The `..` element of Go `path.Clean`, on the written bytes `out` (reversed)
and `dotdot`: backtrack when `out.w > dotdot` (`out.w--` exposes the byte
`out.headD` at the new index `out.w`), append `..` when the path is not rooted,
and do nothing otherwise. -/
def dotdotElem (rooted : Bool) (out : List Char) (dotdot : Nat) : List Char × Nat :=
  if dotdot < out.length then
    (backtrack dotdot (out.headD '/') out.tail, dotdot)
  else if !rooted then
    let out1 := if 0 < out.length then '/' :: out else out
    ('.' :: '.' :: out1, out1.length + 2)
  else (out, dotdot)

/-- The slash a real path element adds before itself:
`if rooted && out.w != 1 || !rooted && out.w != 0 { out.append('/') }`. -/
def addSlash (rooted : Bool) (out : List Char) : List Char :=
  if (rooted ∧ out.length ≠ 1) ∨ (¬ rooted ∧ out.length ≠ 0) then '/' :: out else out

/-- One iteration of the loop `for r < n` of Go `path.Clean`, the `switch` on
`path[r:] = c :: tl`.  `out` is the written bytes `buf[:w]` reversed; the result
is the new `path[r:]`, `out` and `dotdot`. -/
def cleanStep (rooted : Bool) (c : Char) (tl : List Char) (out : List Char) (dotdot : Nat) :
    List Char × List Char × Nat :=
  if c = '/' then
    (tl, out, dotdot)
  else if c = '.' ∧ (tl = [] ∨ tl.head? = some '/') then
    (tl, out, dotdot)
  else if c = '.' ∧ tl.head? = some '.' ∧ (tl.tail = [] ∨ tl.tail.head? = some '/') then
    (tl.tail, dotdotElem rooted out dotdot)
  else
    ((c :: tl).dropWhile fun b => b ≠ '/',
      ((c :: tl).takeWhile fun b => b ≠ '/').reverse ++ addSlash rooted out, dotdot)

/-- The loop `for r < n` of Go `path.Clean`: `rest` is `path[r:]`, and the
result is the final `out` and `dotdot`.  Every iteration consumes at least one
byte of `rest`, so fuel `rest.length` suffices. -/
def cleanLoop (rooted : Bool) : Nat → List Char → List Char → Nat → List Char × Nat
  | 0, _, out, dotdot => (out, dotdot)
  | _ + 1, [], out, dotdot => (out, dotdot)
  | fuel + 1, c :: tl, out, dotdot =>
    cleanLoop rooted fuel (cleanStep rooted c tl out dotdot).1
      (cleanStep rooted c tl out dotdot).2.1 (cleanStep rooted c tl out dotdot).2.2

/-- Go `path.Clean`.  A rooted path starts with `out = "/"` and `r, dotdot = 1, 1`,
any other with the empty `out` and `r, dotdot = 0, 0`. -/
def Clean (path : String) : String :=
  if path = "" then "."
  else
    let rooted : Bool := path.data.head? = some '/'
    let out :=
      cleanLoop rooted path.data.length (if rooted then path.data.tail else path.data)
        (if rooted then ['/'] else []) (if rooted then 1 else 0)
    if out.1.length = 0 then "." else String.mk out.1.reverse

/-- Go `path.Join`: the non-empty elements joined with `/`, then cleaned. -/
def Join (elem : List String) : String :=
  let size := (elem.map String.length).sum
  if size = 0 then ""
  else
    Clean (elem.foldl
      (fun buf e =>
        if 0 < buf.length ∨ e ≠ "" then (if 0 < buf.length then buf ++ "/" else buf) ++ e
        else buf) "")

/-- Go `path.Dir`: everything up to the last `/`, cleaned. -/
def Dir (path : String) : String :=
  Clean (String.mk (path.data.reverse.dropWhile fun b => b ≠ '/').reverse)

/-- Go `(*torsniff).torrentPath(infohashHex, torrent)`; `dir` is the field
`t.dir`.  The result is the pair `(name, dir)`. -/
def torrentPath (dir : String) (infohashHex : String) (tor : torrent) : String × String :=
  (Join [dir, tor.name ++ ".torrent"], dir)

/-! ## Reference notions used to state the properties -/

/-- The entries of the `files` list of an info dictionary; none when the key is
absent or is not a list. -/
def listedFiles (dict : Dict) : List BVal :=
  match dict.get "files" with
  | some (.list files) => files
  | _ => []

/-- The integer `length` values of the dictionary entries of a list. -/
def declaredLengths : List BVal → List Int
  | [] => []
  | .dict f :: rest =>
    match Dict.get f "length" with
    | some (.int n) => n :: declaredLengths rest
    | _ => declaredLengths rest
  | _ :: rest => declaredLengths rest

/-- The sum of a list of integers as an `int64`. -/
def int64Sum (l : List Int) : Int :=
  wrapInt64 l.sum

/-- The file dictionary `f` names its path by the strings `comps`: they are its
`path.utf-8` list, or its `path` list when it has no `path.utf-8` list. -/
def NamedBy (f : Dict) (comps : List String) : Prop :=
  f.get "path.utf-8" = some (.list (comps.map BVal.str)) ∨
    ((∀ l, f.get "path.utf-8" ≠ some (.list l)) ∧
      f.get "path" = some (.list (comps.map BVal.str)))

/-- The torrent of `parseTorrent` before the `files` loop: the name, length and
piece length read from the dictionary. -/
def parseHeader (dict : Dict) (infohashHex : String) : torrent :=
  let t : torrent :=
    { infohashHex := infohashHex, name := "", length := 0, pieceLength := 0,
      files := [], TFiles := [] }
  let t : torrent :=
    match asString (dict.get "name.utf-8") with
    | some name => { t with name := name }
    | none =>
      match asString (dict.get "name") with
      | some name => { t with name := name }
      | none => t
  let t : torrent :=
    match asInt64 (dict.get "length") with
    | some length => { t with length := length }
    | none => t
  match asInt64 (dict.get "piece length") with
  | some pieceLength => { t with pieceLength := pieceLength }
  | none => t

/-- The `files` loop of `parseTorrent`, from `totalSize = 0`. -/
def parseFiles (dict : Dict) (t : torrent) : Int × torrent :=
  match asList (dict.get "files") with
  | some files => rangeFiles (0, t) files
  | none => (0, t)

/-- The two defaults at the end of `parseTorrent`. -/
def parseFinish (st : Int × torrent) : torrent :=
  let t : torrent := if st.2.length = 0 then { st.2 with length := st.1 } else st.2
  if t.files.length = 0 then
    { t with
      files := t.files ++ [{ name := t.name, length := t.length }]
      TFiles := t.TFiles ++ [{ Name := t.name, Length := t.length }] }
  else t

/-- The sample announcement of the examples. -/
def sampleAnnouncement : announcement :=
  { infohash := "\x01\x23\x45\x67\x89\xab\xcd\xef\x01\x23\x45\x67\x89\xab\xcd\xef\x01\x23\x45\x67",
    infohashHex := "0123456789abcdef0123456789abcdef01234567",
    peer := "203.0.113.7:6881" }

/-- The torrent parsed from the single-file sample. -/
def sampleTorrent : torrent :=
  { infohashHex := "0123456789abcdef0123456789abcdef01234567", name := "ubuntu.iso",
    length := 2048, pieceLength := 512,
    files := [{ name := "ubuntu.iso", length := 2048 }],
    TFiles := [{ Name := "ubuntu.iso", Length := 2048 }] }

/-- The row `saveTorrent` inserts for the single-file sample. -/
def sampleRow : Row :=
  { hash := "0123456789abcdef0123456789abcdef01234567", name := "ubuntu.iso",
    piece_length := 512, files_number := 1, total_length := 2048,
    files := "[\x7b\"name\":\"ubuntu.iso\",\"length\":2048\x7d]" }

/-- An environment with a unique `hash` column in which another worker commits
the sample row between the query and the insert of this call. -/
def racingEnv : DbEnv :=
  { uniqueHash := true, queryFails := false, prepareFails := false, execFails := false,
    concurrent := fun db => db ++ [sampleRow] }

/-- The `out` and `dotdot` with which `path.Clean` leaves its loop on the
non-empty path `p`. -/
def cleanState (p : List Char) : List Char × Nat :=
  cleanLoop (p.head? = some '/') p.length (if p.head? = some '/' then p.tail else p)
    (if p.head? = some '/' then ['/'] else []) (if p.head? = some '/' then 1 else 0)

/-- The path `x` is empty or ends with `/`. -/
def EndsSlash (x : List Char) : Prop :=
  x = [] ∨ ∃ x0, x = x0 ++ ['/']

/-- A torrent whose name has `..` and `/` components. -/
def escapingTorrent : torrent :=
  { infohashHex := "0123456789abcdef0123456789abcdef01234567", name := "../../etc/cron.d/job",
    length := 2048, pieceLength := 512,
    files := [{ name := "../../etc/cron.d/job", length := 2048 }],
    TFiles := [{ Name := "../../etc/cron.d/job", Length := 2048 }] }

/-- A listed file with both a `path` and a different `path.utf-8`. -/
def twoPathsFile : Dict :=
  [("length", .int 100), ("path", .list [.str "a.flac"]),
   ("path.utf-8", .list [.str "b.flac"])]

/-! ## Properties of `parseTorrent` -/

theorem wrapInt64_wrap_add (a b : Int) :
    wrapInt64 (wrapInt64 a + b) = wrapInt64 (a + b) := by
  unfold wrapInt64
  omega

theorem wrapInt64_idem (a : Int) : wrapInt64 (wrapInt64 a) = wrapInt64 a := by
  unfold wrapInt64
  omega

theorem wrapInt64_zero : wrapInt64 0 = 0 := by
  decide

theorem asInt64_eq_some (v : Option BVal) (n : Int) :
    asInt64 v = some n ↔ v = some (.int n) := by
  unfold asInt64
  split <;> simp_all

theorem asList_eq_some (v : Option BVal) (l : List BVal) :
    asList v = some l ↔ v = some (.list l) := by
  unfold asList
  split <;> simp_all

theorem asString_eq_some (v : Option BVal) (x : String) :
    asString v = some x ↔ v = some (.str x) := by
  unfold asString
  split <;> simp_all

theorem extractFiles_header (st : Int × torrent) (f : Dict) :
    (extractFiles st f).2.name = st.2.name ∧ (extractFiles st f).2.length = st.2.length ∧
      (extractFiles st f).2.pieceLength = st.2.pieceLength ∧
      (extractFiles st f).2.infohashHex = st.2.infohashHex := by
  simp [extractFiles]

theorem rangeFiles_header (l : List BVal) : ∀ st : Int × torrent,
    (rangeFiles st l).2.name = st.2.name ∧ (rangeFiles st l).2.length = st.2.length ∧
      (rangeFiles st l).2.pieceLength = st.2.pieceLength ∧
      (rangeFiles st l).2.infohashHex = st.2.infohashHex := by
  induction l with
  | nil => intro st; simp [rangeFiles]
  | cons v vs ih =>
    intro st
    cases v with
    | dict f =>
      simp only [rangeFiles]
      have h1 := ih (extractFiles st f)
      have h2 := extractFiles_header st f
      exact ⟨h1.1.trans h2.1, h1.2.1.trans h2.2.1, h1.2.2.1.trans h2.2.2.1,
        h1.2.2.2.trans h2.2.2.2⟩
    | int n => simpa [rangeFiles] using ih st
    | uint n => simpa [rangeFiles] using ih st
    | str x => simpa [rangeFiles] using ih st
    | list x => simpa [rangeFiles] using ih st

theorem extractFiles_total (st : Int × torrent) (f : Dict) :
    (extractFiles st f).1 =
      match asInt64 (f.get "length") with
      | some n => wrapInt64 (st.1 + n)
      | none => st.1 := by
  unfold extractFiles
  cases asInt64 (f.get "length") <;> rfl

theorem rangeFiles_total (l : List BVal) : ∀ st : Int × torrent,
    wrapInt64 st.1 = st.1 →
      (rangeFiles st l).1 = wrapInt64 (st.1 + (declaredLengths l).sum) := by
  induction l with
  | nil => intro st h; simp [rangeFiles, declaredLengths, h]
  | cons v vs ih =>
    intro st h
    cases v with
    | dict f =>
      simp only [rangeFiles, declaredLengths]
      have ht := extractFiles_total st f
      cases hn : asInt64 (Dict.get f "length") with
      | some n =>
        rw [hn] at ht
        simp only at ht
        rw [(asInt64_eq_some _ _).1 hn]
        simp only
        rw [ih (extractFiles st f) (by rw [ht, wrapInt64_idem]), ht, wrapInt64_wrap_add,
          List.sum_cons, add_assoc]
      | none =>
        rw [hn] at ht
        simp only at ht
        have hd : (match Dict.get f "length" with
            | some (.int n) => n :: declaredLengths vs
            | _ => declaredLengths vs) = declaredLengths vs := by
          split
          · rename_i n hn2
            rw [(asInt64_eq_some _ _).2 hn2] at hn
            cases hn
          · rfl
        rw [hd, ih (extractFiles st f) (by rw [ht]; exact h), ht]
    | int n => simpa [rangeFiles, declaredLengths] using ih st h
    | uint n => simpa [rangeFiles, declaredLengths] using ih st h
    | str x => simpa [rangeFiles, declaredLengths] using ih st h
    | list x => simpa [rangeFiles, declaredLengths] using ih st h

theorem SprintList_str (comps : List String) :
    SprintList (comps.map BVal.str) = comps := by
  induction comps with
  | nil => simp [SprintList]
  | cons c cs ih => simp [SprintList, Sprint, ih]

theorem extractFiles_named (st : Int × torrent) (f : Dict) (n : Int) (comps : List String)
    (hlen : f.get "length" = some (.int n)) (hname : NamedBy f comps) :
    (extractFiles st f).2.files =
        st.2.files ++ [{ name := "/".intercalate comps, length := n }] ∧
      (extractFiles st f).2.TFiles =
        st.2.TFiles ++ [{ Name := "/".intercalate comps, Length := n }] := by
  have hl : asInt64 (f.get "length") = some n := (asInt64_eq_some _ _).2 hlen
  have hfn : (match asList (f.get "path.utf-8") with
      | some inter => joinPath inter
      | none =>
        match asList (f.get "path") with
        | some inter => joinPath inter
        | none => "") = "/".intercalate comps := by
    rcases hname with h | ⟨h1, h2⟩
    · rw [(asList_eq_some _ _).2 h]
      simp [joinPath, SprintList_str]
    · have hnone : asList (f.get "path.utf-8") = none := by
        cases hx : asList (f.get "path.utf-8") with
        | none => rfl
        | some l => exact absurd ((asList_eq_some _ _).1 hx) (h1 l)
      rw [hnone, (asList_eq_some _ _).2 h2]
      simp [joinPath, SprintList_str]
  unfold extractFiles
  simp [hl, hfn]

theorem rangeFiles_named (specs : List (Dict × Int × List String))
    (hall : ∀ s ∈ specs, s.1.get "length" = some (.int s.2.1) ∧ NamedBy s.1 s.2.2) :
    ∀ st : Int × torrent,
      (rangeFiles st (specs.map fun s => BVal.dict s.1)).2.files =
          st.2.files ++ specs.map (fun s => { name := "/".intercalate s.2.2, length := s.2.1 }) ∧
        (rangeFiles st (specs.map fun s => BVal.dict s.1)).2.TFiles =
          st.2.TFiles ++ specs.map (fun s => { Name := "/".intercalate s.2.2, Length := s.2.1 }) := by
  induction specs with
  | nil => intro st; simp [rangeFiles]
  | cons s ss ih =>
    intro st
    have hs := hall s (List.mem_cons_self _ _)
    have hx := extractFiles_named st s.1 s.2.1 s.2.2 hs.1 hs.2
    have hi := ih (fun x hx => hall x (List.mem_cons_of_mem _ hx)) (extractFiles st s.1)
    simp only [List.map_cons, rangeFiles]
    rw [hi.1, hi.2, hx.1, hx.2]
    simp

/-- The two file lists of a torrent agree entry by entry. -/
theorem extractFiles_agree (st : Int × torrent) (f : Dict)
    (h : st.2.TFiles.map (fun x => (x.Name, x.Length)) =
      st.2.files.map (fun x => (x.name, x.length))) :
    (extractFiles st f).2.TFiles.map (fun x => (x.Name, x.Length)) =
      (extractFiles st f).2.files.map (fun x => (x.name, x.length)) := by
  simp [extractFiles, h]

theorem rangeFiles_agree (l : List BVal) : ∀ st : Int × torrent,
    st.2.TFiles.map (fun x => (x.Name, x.Length)) =
        st.2.files.map (fun x => (x.name, x.length)) →
      (rangeFiles st l).2.TFiles.map (fun x => (x.Name, x.Length)) =
        (rangeFiles st l).2.files.map (fun x => (x.name, x.length)) := by
  induction l with
  | nil => intro st h; simpa [rangeFiles] using h
  | cons v vs ih =>
    intro st h
    cases v with
    | dict f => exact ih _ (extractFiles_agree st f h)
    | int n => exact ih st h
    | uint n => exact ih st h
    | str x => exact ih st h
    | list x => exact ih st h

/-- The body of `parseTorrent` on a decodable input, in three stages. -/
theorem parseTorrent_ok (decode : String → Except String Dict) (metadata infohashHex : String)
    (dict : Dict) (hdec : decode metadata = .ok dict) :
    parseTorrent decode metadata infohashHex =
      .ok (parseFinish (parseFiles dict (parseHeader dict infohashHex))) := by
  unfold parseTorrent
  rw [hdec]
  rfl

theorem parseHeader_files (dict : Dict) (infohashHex : String) :
    (parseHeader dict infohashHex).files = [] ∧ (parseHeader dict infohashHex).TFiles = [] := by
  unfold parseHeader
  cases asString (dict.get "name.utf-8") <;> cases asString (dict.get "name") <;>
    cases asInt64 (dict.get "length") <;> cases asInt64 (dict.get "piece length") <;>
    exact ⟨rfl, rfl⟩

theorem parseHeader_length (dict : Dict) (infohashHex : String) :
    (parseHeader dict infohashHex).length = (asInt64 (dict.get "length")).getD 0 := by
  unfold parseHeader
  cases asString (dict.get "name.utf-8") <;> cases asString (dict.get "name") <;>
    cases asInt64 (dict.get "length") <;> cases asInt64 (dict.get "piece length") <;> rfl

theorem parseFiles_total (dict : Dict) (t : torrent) :
    (parseFiles dict t).1 = int64Sum (declaredLengths (listedFiles dict)) := by
  unfold parseFiles listedFiles int64Sum
  cases h : asList (dict.get "files") with
  | some files =>
    rw [(asList_eq_some _ _).1 h]
    simp only
    rw [rangeFiles_total files (0, t) wrapInt64_zero]
    simp
  | none =>
    have hd : (match dict.get "files" with
        | some (.list files) => files
        | _ => []) = [] := by
      split
      · rename_i files hf
        rw [(asList_eq_some _ _).2 hf] at h
        cases h
      · rfl
    rw [hd]
    simp [declaredLengths, wrapInt64_zero]

theorem parseFiles_header (dict : Dict) (t : torrent) :
    (parseFiles dict t).2.name = t.name ∧ (parseFiles dict t).2.length = t.length ∧
      (parseFiles dict t).2.pieceLength = t.pieceLength ∧
      (parseFiles dict t).2.infohashHex = t.infohashHex := by
  unfold parseFiles
  cases asList (dict.get "files") with
  | some files => exact rangeFiles_header files (0, t)
  | none => exact ⟨rfl, rfl, rfl, rfl⟩

theorem parseFinish_length (st : Int × torrent) (h : st.2.length = 0) :
    (parseFinish st).length = st.1 := by
  unfold parseFinish
  simp only [h, if_true]
  split <;> rfl

/-- C1: when the decoded info dictionary has no integer `length`, the total
length of the parsed torrent is the sum, in `int64` arithmetic, of the integer
`length` values of the dictionary entries of its `files` list (0 without any). -/
theorem parseTorrent_total_length (decode : String → Except String Dict)
    (metadata infohashHex : String) (dict : Dict)
    (hdec : decode metadata = .ok dict)
    (hlen : ∀ n, dict.get "length" ≠ some (.int n)) :
    ∃ t, parseTorrent decode metadata infohashHex = .ok t ∧
      t.length = int64Sum (declaredLengths (listedFiles dict)) := by
  refine ⟨_, parseTorrent_ok decode metadata infohashHex dict hdec, ?_⟩
  have hnone : asInt64 (dict.get "length") = none := by
    cases hx : asInt64 (dict.get "length") with
    | none => rfl
    | some n => exact absurd ((asInt64_eq_some _ _).1 hx) (hlen n)
  have h0 : (parseFiles dict (parseHeader dict infohashHex)).2.length = 0 := by
    rw [(parseFiles_header dict _).2.1, parseHeader_length, hnone]
    rfl
  rw [parseFinish_length _ h0, parseFiles_total]

/-- Witness of C1 on the multi-file sample: no `length` key, total 100 + 200. -/
theorem parseTorrent_total_length_witness :
    ∃ t, parseTorrent sampleDecode
        "d5:filesld6:lengthi100e4:pathl6:a.flaceed6:lengthi200e4:pathl3:sub6:b.flaceee4:name5:album12:piece lengthi16384ee"
        "0123456789abcdef0123456789abcdef01234567" = .ok t ∧
      t.length = int64Sum [100, 200] :=
  parseTorrent_total_length sampleDecode _ _
    [("files", .list [
        .dict [("length", .int 100), ("path", .list [.str "a.flac"])],
        .dict [("length", .int 200), ("path", .list [.str "sub", .str "b.flac"])]]),
     ("name", .str "album"), ("piece length", .int 16384)]
    (by rfl) (by intro n h; simp [Dict.get] at h)

theorem parseFiles_agree (dict : Dict) (t : torrent)
    (h : t.TFiles.map (fun x => (x.Name, x.Length)) = t.files.map (fun x => (x.name, x.length))) :
    (parseFiles dict t).2.TFiles.map (fun x => (x.Name, x.Length)) =
      (parseFiles dict t).2.files.map (fun x => (x.name, x.length)) := by
  unfold parseFiles
  cases asList (dict.get "files") with
  | some files => exact rangeFiles_agree files (0, t) h
  | none => exact h

theorem parseFinish_agree (st : Int × torrent)
    (h : st.2.TFiles.map (fun x => (x.Name, x.Length)) =
      st.2.files.map (fun x => (x.name, x.length))) :
    (parseFinish st).files ≠ [] ∧
      (parseFinish st).TFiles.map (fun x => (x.Name, x.Length)) =
        (parseFinish st).files.map (fun x => (x.name, x.length)) := by
  unfold parseFinish
  by_cases h0 : st.2.length = 0 <;> by_cases hf : st.2.files.length = 0 <;>
    simp only [h0, hf, if_true, if_false] <;> simp_all

theorem parseFinish_no_files (st : Int × torrent) (hf : st.2.files = []) (hT : st.2.TFiles = []) :
    (parseFinish st).files =
        [{ name := (parseFinish st).name, length := (parseFinish st).length }] ∧
      (parseFinish st).TFiles =
        [{ Name := (parseFinish st).name, Length := (parseFinish st).length }] := by
  unfold parseFinish
  by_cases h0 : st.2.length = 0 <;> simp [h0, hf, hT]

theorem parseFinish_some_files (st : Int × torrent) (hf : st.2.files ≠ []) :
    (parseFinish st).files = st.2.files ∧ (parseFinish st).TFiles = st.2.TFiles := by
  unfold parseFinish
  by_cases h0 : st.2.length = 0 <;> simp [h0, hf]

/-- C2: when the `files` list of the decoded dictionary is absent or empty,
the parsed torrent has exactly one file entry, carrying the name and the total
length of the torrent. -/
theorem parseTorrent_single_file (decode : String → Except String Dict)
    (metadata infohashHex : String) (dict : Dict)
    (hdec : decode metadata = .ok dict)
    (hfiles : ∀ l, dict.get "files" = some (.list l) → l = []) :
    ∃ t, parseTorrent decode metadata infohashHex = .ok t ∧
      t.files = [{ name := t.name, length := t.length }] ∧
      t.TFiles = [{ Name := t.name, Length := t.length }] := by
  refine ⟨_, parseTorrent_ok decode metadata infohashHex dict hdec, ?_⟩
  have hst : parseFiles dict (parseHeader dict infohashHex) = (0, parseHeader dict infohashHex) := by
    unfold parseFiles
    cases h : asList (dict.get "files") with
    | none => rfl
    | some l =>
      have := hfiles l ((asList_eq_some _ _).1 h)
      subst this
      rfl
  rw [hst]
  exact parseFinish_no_files _ (parseHeader_files dict infohashHex).1
    (parseHeader_files dict infohashHex).2

/-- Witness of C2: the single-file sample `ubuntu.iso` of 2048 bytes with piece
length 512 gives one file entry `{ubuntu.iso, 2048}`. -/
theorem parseTorrent_single_file_witness :
    (∃ t, parseTorrent sampleDecode "d6:lengthi2048e4:name10:ubuntu.iso12:piece lengthi512ee"
        "0123456789abcdef0123456789abcdef01234567" = .ok t ∧
      t.files = [{ name := t.name, length := t.length }] ∧
      t.TFiles = [{ Name := t.name, Length := t.length }]) ∧
    parseTorrent sampleDecode "d6:lengthi2048e4:name10:ubuntu.iso12:piece lengthi512ee"
        "0123456789abcdef0123456789abcdef01234567" =
      .ok { infohashHex := "0123456789abcdef0123456789abcdef01234567", name := "ubuntu.iso",
            length := 2048, pieceLength := 512,
            files := [{ name := "ubuntu.iso", length := 2048 }],
            TFiles := [{ Name := "ubuntu.iso", Length := 2048 }] } :=
  ⟨parseTorrent_single_file sampleDecode _ _
      [("length", .int 2048), ("name", .str "ubuntu.iso"), ("piece length", .int 512)]
      (by rfl) (by intro l h; simp [Dict.get] at h),
    by rfl⟩

/-- C3, as amended: when `files` is a non-empty list of dictionaries, each with
an integer `length` and a list of strings under `path.utf-8`, or under `path`
when it has no `path.utf-8` list, the parsed torrent has one file entry per
listed file, in the same order, named by those strings joined with `/` and
carrying that `length`. -/
theorem parseTorrent_listed_files (decode : String → Except String Dict)
    (metadata infohashHex : String) (dict : Dict) (specs : List (Dict × Int × List String))
    (hdec : decode metadata = .ok dict)
    (hfiles : dict.get "files" = some (.list (specs.map fun s => BVal.dict s.1)))
    (hne : specs ≠ [])
    (hall : ∀ s ∈ specs, s.1.get "length" = some (.int s.2.1) ∧ NamedBy s.1 s.2.2) :
    ∃ t, parseTorrent decode metadata infohashHex = .ok t ∧
      t.files = specs.map (fun s => { name := "/".intercalate s.2.2, length := s.2.1 }) ∧
      t.TFiles = specs.map (fun s => { Name := "/".intercalate s.2.2, Length := s.2.1 }) := by
  refine ⟨_, parseTorrent_ok decode metadata infohashHex dict hdec, ?_⟩
  have hst : parseFiles dict (parseHeader dict infohashHex) =
      rangeFiles (0, parseHeader dict infohashHex) (specs.map fun s => BVal.dict s.1) := by
    unfold parseFiles
    rw [(asList_eq_some _ _).2 hfiles]
  have hr := rangeFiles_named specs hall (0, parseHeader dict infohashHex)
  simp only [(parseHeader_files dict infohashHex).1, (parseHeader_files dict infohashHex).2,
    List.nil_append] at hr
  have hnn : (parseFiles dict (parseHeader dict infohashHex)).2.files ≠ [] := by
    rw [hst, hr.1]
    simpa using hne
  have hfin := parseFinish_some_files _ hnn
  rw [hfin.1, hfin.2, hst]
  exact hr

/-- Witness of C3 as amended: the multi-file sample `album` gives
`files = [{a.flac, 100}, {sub/b.flac, 200}]`, two files and total length 300. -/
theorem parseTorrent_listed_files_witness :
    (∃ t, parseTorrent sampleDecode
        "d5:filesld6:lengthi100e4:pathl6:a.flaceed6:lengthi200e4:pathl3:sub6:b.flaceee4:name5:album12:piece lengthi16384ee"
        "0123456789abcdef0123456789abcdef01234567" = .ok t ∧
      t.files = [{ name := "a.flac", length := 100 }, { name := "sub/b.flac", length := 200 }] ∧
      t.TFiles = [{ Name := "a.flac", Length := 100 }, { Name := "sub/b.flac", Length := 200 }]) ∧
    parseTorrent sampleDecode
        "d5:filesld6:lengthi100e4:pathl6:a.flaceed6:lengthi200e4:pathl3:sub6:b.flaceee4:name5:album12:piece lengthi16384ee"
        "0123456789abcdef0123456789abcdef01234567" =
      .ok { infohashHex := "0123456789abcdef0123456789abcdef01234567", name := "album",
            length := 300, pieceLength := 16384,
            files := [{ name := "a.flac", length := 100 }, { name := "sub/b.flac", length := 200 }],
            TFiles := [{ Name := "a.flac", Length := 100 },
                       { Name := "sub/b.flac", Length := 200 }] } :=
  ⟨parseTorrent_listed_files sampleDecode _ _
      [("files", .list [
          .dict [("length", .int 100), ("path", .list [.str "a.flac"])],
          .dict [("length", .int 200), ("path", .list [.str "sub", .str "b.flac"])]]),
       ("name", .str "album"), ("piece length", .int 16384)]
      [([("length", .int 100), ("path", .list [.str "a.flac"])], 100, ["a.flac"]),
       ([("length", .int 200), ("path", .list [.str "sub", .str "b.flac"])], 200,
          ["sub", "b.flac"])]
      (by rfl) (by rfl) (by simp)
      (by
        intro s hs
        simp only [List.mem_cons, List.mem_singleton, List.not_mem_nil, or_false] at hs
        rcases hs with rfl | rfl
        · exact ⟨by rfl, Or.inr ⟨by intro l h; simp [Dict.get] at h, by rfl⟩⟩
        · exact ⟨by rfl, Or.inr ⟨by intro l h; simp [Dict.get] at h, by rfl⟩⟩),
    by rfl⟩

/-- Counterexample to C3 as stated: the only listed file has the integer
`length` 100 and the `path` list `["a.flac"]`, but also a `path.utf-8` list
`["b.flac"]`; its entry is named `b.flac`, not `a.flac`. -/
theorem parseTorrent_path_counterexample :
    twoPathsFile.get "length" = some (.int 100) ∧
    twoPathsFile.get "path" = some (.list [.str "a.flac"]) ∧
    sampleDecode
        "d5:filesld6:lengthi100e4:pathl6:a.flace10:path.utf-8l6:b.flaceee4:name5:album12:piece lengthi16384ee" =
      .ok [("files", .list [.dict twoPathsFile]), ("name", .str "album"),
           ("piece length", .int 16384)] ∧
    parseTorrent sampleDecode
        "d5:filesld6:lengthi100e4:pathl6:a.flace10:path.utf-8l6:b.flaceee4:name5:album12:piece lengthi16384ee"
        "0123456789abcdef0123456789abcdef01234567" =
      .ok { infohashHex := "0123456789abcdef0123456789abcdef01234567", name := "album",
            length := 100, pieceLength := 16384,
            files := [{ name := "b.flac", length := 100 }],
            TFiles := [{ Name := "b.flac", Length := 100 }] } ∧
    ([{ name := "b.flac", length := 100 }] : List tfile) ≠
      [{ name := "/".intercalate ["a.flac"], length := 100 }] := by
  refine ⟨by rfl, by rfl, by rfl, by rfl, by decide⟩

/-! ## Properties of `saveTorrent`, `work` and the supervisor -/

theorem rowsWith_of_not_hasHash (db : Store) (h : String) (hno : hasHash db h = false) :
    rowsWith db h = [] := by
  unfold rowsWith hasHash at *
  rw [List.filter_eq_nil_iff]
  intro r hr
  rw [List.any_eq_false] at hno
  exact hno r hr

theorem scan_errNoRows (env : DbEnv) (db : Store) (h : String)
    (hs : scan env db h = .errNoRows) : env.queryFails = false ∧ hasHash db h = false := by
  unfold scan at hs
  cases hq : env.queryFails <;> cases hh : hasHash db h <;> simp_all

theorem saveTorrent_found (marshal : List TFile → String) (env : DbEnv) (db : Store)
    (h data : String) (tor : Option torrent) (hhas : hasHash db h = true) :
    saveTorrent marshal env db h data tor = (.returned none, db) := by
  unfold saveTorrent scan
  cases hq : env.queryFails <;> simp [hhas]

theorem saveTorrent_rows (marshal : List TFile → String) (env : DbEnv) (db : Store)
    (h data : String) (tor : Option torrent) (hseq : ∀ s, env.concurrent s = s)
    (hkey : (rowsWith db h).length ≤ 1) :
    (rowsWith (saveTorrent marshal env db h data tor).2 h).length ≤ 1 := by
  unfold saveTorrent
  cases hs : scan env db h with
  | found => exact hkey
  | failed => exact hkey
  | errNoRows =>
    have hno := (scan_errNoRows env db h hs).2
    cases tor with
    | none => exact hkey
    | some t =>
      simp only [hseq]
      cases hp : env.prepareFails with
      | true => simpa using hkey
      | false =>
        simp only [Bool.false_eq_true, if_false]
        unfold exec
        cases he : env.execFails with
        | true => simpa using hkey
        | false =>
          simp only [hno, Bool.and_false, Bool.false_eq_true, if_false]
          have hnil := rowsWith_of_not_hasHash db h hno
          simp only [rowsWith, List.filter_append] at hnil ⊢
          rw [hnil]
          simp only [List.nil_append, List.filter_cons, List.filter_nil]
          split <;> simp

/-- C4: when a row with the infohash exists, `saveTorrent` returns no error and
leaves the table unchanged; and after two calls in sequence with the same
infohash, on a table with at most one row of that hash, at most one row has it. -/
theorem saveTorrent_twice (marshal : List TFile → String) (env1 env2 : DbEnv) (db : Store)
    (h data1 data2 : String) (tor1 tor2 : Option torrent)
    (hseq1 : ∀ s, env1.concurrent s = s) (hseq2 : ∀ s, env2.concurrent s = s)
    (hkey : (rowsWith db h).length ≤ 1) :
    (hasHash db h = true → saveTorrent marshal env1 db h data1 tor1 = (.returned none, db)) ∧
      (rowsWith (saveTorrent marshal env2 (saveTorrent marshal env1 db h data1 tor1).2
        h data2 tor2).2 h).length ≤ 1 :=
  ⟨saveTorrent_found marshal env1 db h data1 tor1,
    saveTorrent_rows marshal env2 _ h data2 tor2 hseq2
      (saveTorrent_rows marshal env1 db h data1 tor1 hseq1 hkey)⟩

/-- Witness of C4: on a table that already holds the sample row, saving the
sample torrent returns no error and changes nothing, and after a second call
one row has the hash. -/
theorem saveTorrent_twice_witness :
    saveTorrent sampleMarshal (DbEnv.quiet true) [sampleRow]
        "0123456789abcdef0123456789abcdef01234567" "" (some sampleTorrent) =
      (.returned none, [sampleRow]) ∧
    (rowsWith (saveTorrent sampleMarshal (DbEnv.quiet false)
        (saveTorrent sampleMarshal (DbEnv.quiet true) [sampleRow]
          "0123456789abcdef0123456789abcdef01234567" "" (some sampleTorrent)).2
        "0123456789abcdef0123456789abcdef01234567" "" none).2
        "0123456789abcdef0123456789abcdef01234567").length ≤ 1 :=
  ⟨(saveTorrent_twice sampleMarshal (DbEnv.quiet true) (DbEnv.quiet false) [sampleRow]
      "0123456789abcdef0123456789abcdef01234567" "" "" (some sampleTorrent) none
      (fun _ => rfl) (fun _ => rfl) (by decide)).1 (by rfl),
    (saveTorrent_twice sampleMarshal (DbEnv.quiet true) (DbEnv.quiet false) [sampleRow]
      "0123456789abcdef0123456789abcdef01234567" "" "" (some sampleTorrent) none
      (fun _ => rfl) (fun _ => rfl) (by decide)).2⟩

/-- C5: for a peer that is not blacklisted, `work` adds the peer address to the
blacklist when the fetch fails and leaves the blacklist as it was when the
fetch succeeds. -/
theorem work_blacklist {β : Type} (ops : BlackListOps β) (decode : String → Except String Dict)
    (marshal : List TFile → String) (fetch : String → String → Except String String)
    (env : DbEnv) (blacklist : β) (db : Store) (tokens : Nat) (ac : announcement)
    (hnot : ops.has blacklist ac.peer = false) :
    (work ops decode marshal fetch env blacklist db tokens ac).blacklist =
      match fetch ac.infohash ac.peer with
      | .error _ => ops.add blacklist ac.peer
      | .ok _ => blacklist := by
  unfold work
  simp only [hnot, Bool.false_eq_true, if_false]
  cases fetch ac.infohash ac.peer with
  | error e => rfl
  | ok metadata =>
    simp only
    cases hsave : saveTorrent marshal env db ac.infohashHex metadata
        (match parseTorrent decode metadata ac.infohashHex with
          | .ok t => some t
          | .error _ => none) with
    | mk out db2 =>
      cases out with
      | panicked => rfl
      | returned e =>
        cases e with
        | some err => rfl
        | none =>
          simp only
          cases parseTorrent decode metadata ac.infohashHex <;> rfl

/-- Witness of C5: a failed fetch from a peer outside an empty blacklist puts
the peer address on the blacklist. -/
theorem work_blacklist_witness :
    (work listBlackList sampleDecode sampleMarshal (fun _ _ => .error "i/o timeout")
        (DbEnv.quiet true) [] [] 1 sampleAnnouncement).blacklist = ["203.0.113.7:6881"] :=
  work_blacklist listBlackList sampleDecode sampleMarshal (fun _ _ => .error "i/o timeout")
    (DbEnv.quiet true) [] [] 1 sampleAnnouncement (by rfl)

/-- C6, evaluated at the failing input: the fetch succeeds with the bytes
`i42e`, which do not decode to a dictionary, and the table has no row for the
infohash; `saveTorrent` is called with the nil torrent and `work` panics. -/
theorem work_panics_on_undecodable :
    sampleDecode "i42e" = .error "bencode data must begin with a dictionary" ∧
    saveTorrent sampleMarshal (DbEnv.quiet true) [] sampleAnnouncement.infohashHex "i42e" none =
      (.panicked, []) ∧
    (work listBlackList sampleDecode sampleMarshal (fun _ _ => .ok "i42e")
        (DbEnv.quiet true) [] [] 1 sampleAnnouncement).exit = .panicked := by
  refine ⟨by rfl, by rfl, by rfl⟩

theorem step_invariant (maxPeers : Nat) (s s1 : Supervisor) (e : Event)
    (hs : step maxPeers s e = some s1)
    (hinv : s.jobs.length = s.tokens ∧ s.tokens ≤ maxPeers) :
    s1.jobs.length = s1.tokens ∧ s1.tokens ≤ maxPeers := by
  cases e with
  | dispatch ac =>
    unfold step at hs
    by_cases hlt : s.tokens < maxPeers
    · simp only [hlt, if_true, Option.some.injEq] at hs
      subst hs
      simp only [List.length_cons]
      omega
    · simp [hlt] at hs
  | complete i =>
    unfold step at hs
    by_cases hc : i < s.jobs.length ∧ 0 < s.tokens
    · simp only [hc, and_self, if_true, Option.some.injEq] at hs
      subst hs
      simp only [List.length_eraseIdx_of_lt hc.1]
      omega
    · simp [hc] at hs

theorem runEvents_invariant (maxPeers : Nat) (evs : List Event) :
    ∀ s s1 : Supervisor, runEvents maxPeers s evs = some s1 →
      (s.jobs.length = s.tokens ∧ s.tokens ≤ maxPeers) →
      s1.jobs.length = s1.tokens ∧ s1.tokens ≤ maxPeers := by
  induction evs with
  | nil =>
    intro s s1 h hinv
    simp only [runEvents, Option.some.injEq] at h
    subst h
    exact hinv
  | cons e es ih =>
    intro s s1 h hinv
    unfold runEvents at h
    cases hstep : step maxPeers s e with
    | none => simp [hstep] at h
    | some s2 =>
      simp only [hstep] at h
      exact ih s2 s1 h (step_invariant maxPeers s s2 e hstep hinv)

/-- C7: in every state the supervisor reaches from its initial state, the number
of jobs in flight equals the number of tokens held and is at most `maxPeers`. -/
theorem supervisor_invariant (maxPeers : Nat) (evs : List Event) (s : Supervisor)
    (hreach : runEvents maxPeers Supervisor.init evs = some s) :
    s.jobs.length = s.tokens ∧ s.tokens ≤ maxPeers :=
  runEvents_invariant maxPeers evs Supervisor.init s hreach ⟨rfl, Nat.zero_le _⟩

/-- Witness of C7: with `maxPeers = 2`, two dispatches and one completion lead
to a state with one job and one token. -/
theorem supervisor_invariant_witness :
    runEvents 2 Supervisor.init
        [.dispatch sampleAnnouncement, .dispatch sampleAnnouncement, .complete 0] =
      some { tokens := 1, jobs := [sampleAnnouncement] } ∧
    ([sampleAnnouncement].length = 1 ∧ 1 ≤ 2) :=
  ⟨by rfl,
    supervisor_invariant 2
      [.dispatch sampleAnnouncement, .dispatch sampleAnnouncement, .complete 0]
      { tokens := 1, jobs := [sampleAnnouncement] } (by rfl)⟩

/-- Counterexample to C8 as stated: the query finds no row, another worker
commits a row with the hash before the insert, and `saveTorrent` returns the
duplicate-entry error, whereas it returns nil when the query finds the row. -/
theorem saveTorrent_collision_counterexample :
    scan racingEnv [] "0123456789abcdef0123456789abcdef01234567" = .errNoRows ∧
    hasHash (racingEnv.concurrent []) "0123456789abcdef0123456789abcdef01234567" = true ∧
    saveTorrent sampleMarshal racingEnv [] "0123456789abcdef0123456789abcdef01234567" ""
        (some sampleTorrent) = (.returned (some .duplicateEntry), [sampleRow]) ∧
    saveTorrent sampleMarshal racingEnv [sampleRow] "0123456789abcdef0123456789abcdef01234567" ""
        (some sampleTorrent) = (.returned none, [sampleRow]) := by
  refine ⟨by rfl, by rfl, by rfl, by rfl⟩

/-- C8, as amended: when the query finds no row and the insert then collides
with a row of the same hash, `saveTorrent` returns the insert error and adds no
row; `work` discards that error: the job returns without a panic, logs nothing
and leaves the blacklist as it was. -/
theorem saveTorrent_collision {β : Type} (ops : BlackListOps β)
    (decode : String → Except String Dict) (marshal : List TFile → String)
    (fetch : String → String → Except String String) (env : DbEnv) (blacklist : β)
    (db : Store) (tokens : Nat) (ac : announcement) (data : String) (t : torrent)
    (hscan : scan env db ac.infohashHex = .errNoRows)
    (hprep : env.prepareFails = false) (hexec : env.execFails = false)
    (huniq : env.uniqueHash = true)
    (hrace : hasHash (env.concurrent db) ac.infohashHex = true)
    (hnot : ops.has blacklist ac.peer = false)
    (hfetch : fetch ac.infohash ac.peer = .ok data)
    (hparse : parseTorrent decode data ac.infohashHex = .ok t) :
    saveTorrent marshal env db ac.infohashHex data (some t) =
        (.returned (some .duplicateEntry), env.concurrent db) ∧
      (work ops decode marshal fetch env blacklist db tokens ac).exit = .returned () ∧
      (work ops decode marshal fetch env blacklist db tokens ac).db = env.concurrent db ∧
      (work ops decode marshal fetch env blacklist db tokens ac).logged = none ∧
      (work ops decode marshal fetch env blacklist db tokens ac).blacklist = blacklist := by
  have hsave : saveTorrent marshal env db ac.infohashHex data (some t) =
      (.returned (some .duplicateEntry), env.concurrent db) := by
    unfold saveTorrent
    simp only [hscan, hprep, Bool.false_eq_true, if_false]
    unfold exec
    simp [hexec, huniq, hrace]
  refine ⟨hsave, ?_⟩
  unfold work
  simp [hnot, hfetch, hparse, hsave]

/-- Witness of C8 as amended: the sample torrent, fetched from the sample peer,
collides with the row another worker commits first. -/
theorem saveTorrent_collision_witness :
    saveTorrent sampleMarshal racingEnv [] sampleAnnouncement.infohashHex
        "d6:lengthi2048e4:name10:ubuntu.iso12:piece lengthi512ee" (some sampleTorrent) =
        (.returned (some .duplicateEntry), [sampleRow]) ∧
      (work listBlackList sampleDecode sampleMarshal
        (fun _ _ => .ok "d6:lengthi2048e4:name10:ubuntu.iso12:piece lengthi512ee")
        racingEnv [] [] 1 sampleAnnouncement).exit = .returned () ∧
      (work listBlackList sampleDecode sampleMarshal
        (fun _ _ => .ok "d6:lengthi2048e4:name10:ubuntu.iso12:piece lengthi512ee")
        racingEnv [] [] 1 sampleAnnouncement).db = [sampleRow] ∧
      (work listBlackList sampleDecode sampleMarshal
        (fun _ _ => .ok "d6:lengthi2048e4:name10:ubuntu.iso12:piece lengthi512ee")
        racingEnv [] [] 1 sampleAnnouncement).logged = none ∧
      (work listBlackList sampleDecode sampleMarshal
        (fun _ _ => .ok "d6:lengthi2048e4:name10:ubuntu.iso12:piece lengthi512ee")
        racingEnv [] [] 1 sampleAnnouncement).blacklist = [] :=
  saveTorrent_collision listBlackList sampleDecode sampleMarshal
    (fun _ _ => .ok "d6:lengthi2048e4:name10:ubuntu.iso12:piece lengthi512ee")
    racingEnv [] [] 1 sampleAnnouncement
    "d6:lengthi2048e4:name10:ubuntu.iso12:piece lengthi512ee" sampleTorrent
    (by rfl) (by rfl) (by rfl) (by rfl) (by rfl) (by rfl) (by rfl) (by rfl)

/-- C10: the two file lists of a parsed torrent are non-empty, equally long and
agree entry by entry on name and length; the row `saveTorrent` inserts for it
has `files_number` at least 1 and equal to the number of entries of the list
its `files` column encodes. -/
theorem parseTorrent_files_agree (decode : String → Except String Dict)
    (marshal : List TFile → String) (metadata infohashHex : String) (t : torrent)
    (hparse : parseTorrent decode metadata infohashHex = .ok t) :
    t.files ≠ [] ∧ t.TFiles ≠ [] ∧ t.files.length = t.TFiles.length ∧
      t.TFiles.map (fun x => (x.Name, x.Length)) = t.files.map (fun x => (x.name, x.length)) ∧
      ∀ (uniqueHash : Bool) (db : Store), hasHash db infohashHex = false →
        ∃ row, saveTorrent marshal (DbEnv.quiet uniqueHash) db infohashHex metadata (some t) =
            (.returned none, db ++ [row]) ∧
          row.files = marshal t.TFiles ∧ row.files_number = t.TFiles.length ∧
          1 ≤ row.files_number := by
  have hagree : t.files ≠ [] ∧
      t.TFiles.map (fun x => (x.Name, x.Length)) = t.files.map (fun x => (x.name, x.length)) := by
    cases hdec : decode metadata with
    | error e =>
      unfold parseTorrent at hparse
      rw [hdec] at hparse
      cases hparse
    | ok dict =>
      rw [parseTorrent_ok decode metadata infohashHex dict hdec] at hparse
      cases hparse
      apply parseFinish_agree
      apply parseFiles_agree
      rw [(parseHeader_files dict infohashHex).1, (parseHeader_files dict infohashHex).2]
      rfl
  have hlen : t.files.length = t.TFiles.length := by
    have := congrArg List.length hagree.2
    simpa using this.symm
  have hpos : 1 ≤ t.files.length := by
    cases hf : t.files with
    | nil => exact absurd hf hagree.1
    | cons a l => simp
  refine ⟨hagree.1, ?_, hlen, hagree.2, ?_⟩
  · intro hT
    rw [hT] at hlen
    simp at hlen
    exact hagree.1 hlen
  · intro uniqueHash db hno
    refine ⟨{ hash := infohashHex, name := t.name, piece_length := t.pieceLength,
              files_number := t.files.length, total_length := t.length,
              files := marshal t.TFiles }, ?_, rfl, hlen, hpos⟩
    unfold saveTorrent scan exec
    simp [DbEnv.quiet, hno]

/-- Witness of C10 on the single-file sample. -/
theorem parseTorrent_files_agree_witness :
    sampleTorrent.files ≠ [] ∧ sampleTorrent.TFiles ≠ [] ∧
      sampleTorrent.files.length = sampleTorrent.TFiles.length ∧
      sampleTorrent.TFiles.map (fun x => (x.Name, x.Length)) =
        sampleTorrent.files.map (fun x => (x.name, x.length)) ∧
      ∀ (uniqueHash : Bool) (db : Store),
        hasHash db "0123456789abcdef0123456789abcdef01234567" = false →
        ∃ row, saveTorrent sampleMarshal (DbEnv.quiet uniqueHash) db
            "0123456789abcdef0123456789abcdef01234567"
            "d6:lengthi2048e4:name10:ubuntu.iso12:piece lengthi512ee" (some sampleTorrent) =
            (.returned none, db ++ [row]) ∧
          row.files = sampleMarshal sampleTorrent.TFiles ∧
          row.files_number = sampleTorrent.TFiles.length ∧ 1 ≤ row.files_number :=
  parseTorrent_files_agree sampleDecode sampleMarshal
    "d6:lengthi2048e4:name10:ubuntu.iso12:piece lengthi512ee"
    "0123456789abcdef0123456789abcdef01234567" sampleTorrent (by rfl)

/-! ## Properties of `path.Clean` and `torrentPath` -/

theorem cleanLoop_nil (rooted : Bool) (fuel : Nat) (out : List Char) (dotdot : Nat) :
    cleanLoop rooted fuel [] out dotdot = (out, dotdot) := by
  cases fuel <;> rfl

theorem dropWhile_length_le (p : Char → Bool) (l : List Char) :
    (l.dropWhile p).length ≤ l.length := by
  induction l with
  | nil => simp
  | cons a l ih =>
    simp only [List.dropWhile_cons]
    split
    · simp only [List.length_cons]; omega
    · simp

/-- Every iteration of the loop consumes the byte `c`. -/
theorem cleanStep_length (rooted : Bool) (c : Char) (tl out : List Char) (dotdot : Nat) :
    (cleanStep rooted c tl out dotdot).1.length ≤ tl.length := by
  have ht : tl.tail.length ≤ tl.length := by simp
  have hd := dropWhile_length_le (fun b => b ≠ '/') tl
  unfold cleanStep
  split
  · exact Nat.le_refl _
  · rename_i hc
    split
    · exact Nat.le_refl _
    · split
      · exact ht
      · have hdw : (c :: tl).dropWhile (fun b => b ≠ '/') = tl.dropWhile (fun b => b ≠ '/') := by
          simp [List.dropWhile_cons, hc]
        simp only [hdw]
        exact hd

/-- The result of the loop does not depend on the fuel, once it suffices. -/
theorem cleanLoop_fuel (rooted : Bool) (fuel1 : Nat) :
    ∀ (fuel2 : Nat) (rest out : List Char) (dotdot : Nat),
      rest.length ≤ fuel1 → rest.length ≤ fuel2 →
      cleanLoop rooted fuel1 rest out dotdot = cleanLoop rooted fuel2 rest out dotdot := by
  induction fuel1 with
  | zero =>
    intro fuel2 rest out dotdot h1 _
    have : rest = [] := List.length_eq_zero.mp (Nat.le_zero.mp h1)
    subst this
    rw [cleanLoop_nil, cleanLoop_nil]
  | succ n ih =>
    intro fuel2 rest out dotdot h1 h2
    cases rest with
    | nil => rw [cleanLoop_nil, cleanLoop_nil]
    | cons c tl =>
      cases fuel2 with
      | zero => simp at h2
      | succ m =>
        simp only [List.length_cons, Nat.add_le_add_iff_right] at h1 h2
        have hs := cleanStep_length rooted c tl out dotdot
        simp only [cleanLoop]
        exact ih m _ _ _ (by omega) (by omega)

theorem takeWhile_append_slash (x y : List Char) :
    (x ++ '/' :: y).takeWhile (fun b => b ≠ '/') = x.takeWhile (fun b => b ≠ '/') := by
  induction x with
  | nil => simp
  | cons a x ih =>
    simp only [List.cons_append, List.takeWhile_cons]
    split
    · rw [ih]
    · rfl

theorem dropWhile_append_slash (x y : List Char) :
    (x ++ '/' :: y).dropWhile (fun b => b ≠ '/') = x.dropWhile (fun b => b ≠ '/') ++ '/' :: y := by
  induction x with
  | nil => simp
  | cons a x ih =>
    simp only [List.cons_append, List.dropWhile_cons]
    split
    · rw [ih]
    · rfl

/-- One iteration does not look past the next `/`: on `c :: tl` followed by
`/ y` it does what it does on `c :: tl`, and leaves `/ y` to be read. -/
theorem cleanStep_append (rooted : Bool) (c : Char) (tl y out : List Char) (dotdot : Nat) :
    cleanStep rooted c (tl ++ '/' :: y) out dotdot =
      ((cleanStep rooted c tl out dotdot).1 ++ '/' :: y,
        (cleanStep rooted c tl out dotdot).2.1, (cleanStep rooted c tl out dotdot).2.2) := by
  have hA : (tl ++ '/' :: y = [] ∨ (tl ++ '/' :: y).head? = some '/') ↔
      (tl = [] ∨ tl.head? = some '/') := by
    cases tl <;> simp
  have hC : ((tl ++ '/' :: y).head? = some '.' ∧
        ((tl ++ '/' :: y).tail = [] ∨ (tl ++ '/' :: y).tail.head? = some '/')) ↔
      (tl.head? = some '.' ∧ (tl.tail = [] ∨ tl.tail.head? = some '/')) := by
    cases tl with
    | nil => simp
    | cons a t2 => cases t2 <;> simp
  have hT : tl.head? = some '.' → (tl ++ '/' :: y).tail = tl.tail ++ '/' :: y := by
    intro h
    cases tl with
    | nil => simp at h
    | cons a t2 => simp
  have e1 := takeWhile_append_slash (c :: tl) y
  have e2 := dropWhile_append_slash (c :: tl) y
  simp only [List.cons_append] at e1 e2
  unfold cleanStep
  simp only [hA, hC, e1, e2]
  split_ifs with h1 h2 h3
  · rfl
  · rfl
  · rw [hT h3.2.1]
  · rfl

/-- The loop on `x` followed by `/ y` is the loop on `x` followed by the loop
on `/ y`. -/
theorem cleanLoop_append (rooted : Bool) (fuel : Nat) :
    ∀ (x y out : List Char) (dotdot : Nat), (x ++ '/' :: y).length ≤ fuel →
      cleanLoop rooted fuel (x ++ '/' :: y) out dotdot =
        cleanLoop rooted fuel ('/' :: y) (cleanLoop rooted fuel x out dotdot).1
          (cleanLoop rooted fuel x out dotdot).2 := by
  induction fuel with
  | zero => intro x y out dotdot h; simp at h
  | succ n ih =>
    intro x y out dotdot h
    cases x with
    | nil => simp [cleanLoop_nil]
    | cons c tl =>
      simp only [List.cons_append, List.length_cons, List.length_append,
        Nat.add_le_add_iff_right] at h
      have hs := cleanStep_length rooted c tl out dotdot
      have hlen : ((cleanStep rooted c tl out dotdot).1 ++ '/' :: y).length ≤ n := by
        simp only [List.length_append, List.length_cons]
        omega
      have hy : ('/' :: y).length ≤ n := by
        simp only [List.length_cons]
        omega
      have lhs : cleanLoop rooted (n + 1) (c :: (tl ++ '/' :: y)) out dotdot =
          cleanLoop rooted n (cleanStep rooted c (tl ++ '/' :: y) out dotdot).1
            (cleanStep rooted c (tl ++ '/' :: y) out dotdot).2.1
            (cleanStep rooted c (tl ++ '/' :: y) out dotdot).2.2 := rfl
      have rhs : cleanLoop rooted (n + 1) (c :: tl) out dotdot =
          cleanLoop rooted n (cleanStep rooted c tl out dotdot).1
            (cleanStep rooted c tl out dotdot).2.1 (cleanStep rooted c tl out dotdot).2.2 := rfl
      rw [cleanStep_append] at lhs
      rw [List.cons_append, lhs, rhs, ih _ _ _ _ hlen]
      exact cleanLoop_fuel rooted n (n + 1) _ _ _ hy (by omega)

/-- A path element of at least three bytes without `/` is copied to `out`
after the slash it needs. -/
theorem cleanLoop_element (rooted : Bool) (fuel : Nat) (e out : List Char) (dotdot : Nat)
    (hlen : 3 ≤ e.length) (hno : '/' ∉ e) (hf : e.length ≤ fuel) :
    cleanLoop rooted fuel e out dotdot = (e.reverse ++ addSlash rooted out, dotdot) := by
  match e, fuel with
  | c :: a :: b :: tl, n + 1 =>
    simp only [List.mem_cons, not_or] at hno
    have hc : c ≠ '/' := fun h => hno.1 h.symm
    have ha : a ≠ '/' := fun h => hno.2.1 h.symm
    have hb : b ≠ '/' := fun h => hno.2.2.1 h.symm
    have hall : ∀ x ∈ c :: a :: b :: tl, (fun b => decide (b ≠ '/')) x = true := by
      intro x hx
      simp only [List.mem_cons] at hx
      simp only [ne_eq, decide_eq_true_eq]
      rcases hx with rfl | rfl | rfl | hx
      · exact hc
      · exact ha
      · exact hb
      · exact fun h => hno.2.2.2 (h ▸ hx)
    have hstep : cleanStep rooted c (a :: b :: tl) out dotdot =
        ([], (c :: a :: b :: tl).reverse ++ addSlash rooted out, dotdot) := by
      unfold cleanStep
      rw [List.takeWhile_eq_self_iff.2 hall, List.dropWhile_eq_nil_iff.2 hall]
      simp [hc, ha, hb]
    show cleanLoop rooted n (cleanStep rooted c (a :: b :: tl) out dotdot).1
      (cleanStep rooted c (a :: b :: tl) out dotdot).2.1
      (cleanStep rooted c (a :: b :: tl) out dotdot).2.2 = _
    rw [hstep, cleanLoop_nil]
  | [], _ => simp at hlen
  | [_], _ => simp at hlen
  | [_, _], _ => simp at hlen
  | _ :: _ :: _ :: _, 0 => simp at hf

theorem cleanStep_slash (rooted : Bool) (tl out : List Char) (dotdot : Nat) :
    cleanStep rooted '/' tl out dotdot = (tl, out, dotdot) := by
  simp [cleanStep]

/-- The value of `path.Clean` on a non-empty path. -/
theorem Clean_mk (p : List Char) (hp : p ≠ []) :
    Clean ⟨p⟩ =
      if (cleanState p).1.length = 0 then "." else String.mk (cleanState p).1.reverse := by
  unfold Clean cleanState
  have hne : (⟨p⟩ : String) ≠ "" := by
    intro h
    exact hp (congrArg String.data h)
  by_cases hr : p.head? = some '/' <;> simp [hne, hr]

/-- The loop of `path.Clean` on `d` followed by `/ y` goes on with `y` from the
state it has after `d`. -/
theorem cleanState_append (d y : List Char) (hd : d ≠ []) :
    cleanState (d ++ '/' :: y) =
      cleanLoop (d.head? = some '/') y.length y (cleanState d).1 (cleanState d).2 := by
  have hhead : (d ++ '/' :: y).head? = d.head? := by
    cases d with
    | nil => exact absurd rfl hd
    | cons a d2 => rfl
  have htail : (d ++ '/' :: y).tail = d.tail ++ '/' :: y := by
    cases d with
    | nil => exact absurd rfl hd
    | cons a d2 => rfl
  have hstart : (if (d ++ '/' :: y).head? = some '/' then (d ++ '/' :: y).tail else d ++ '/' :: y) =
      (if d.head? = some '/' then d.tail else d) ++ '/' :: y := by
    rw [hhead, htail]
    split <;> rfl
  have hl : (if d.head? = some '/' then d.tail else d).length ≤ d.length := by
    split
    · simp
    · exact Nat.le_refl _
  unfold cleanState
  rw [hstart, hhead]
  rw [cleanLoop_append _ _ _ y _ _
    (by simp only [List.length_append, List.length_cons] at hl ⊢; omega)]
  rw [cleanLoop_fuel _ (d ++ '/' :: y).length d.length _ _ _
    (by simp only [List.length_append, List.length_cons]; omega) hl]
  have hF : (d ++ '/' :: y).length = (d.length + y.length) + 1 := by
    simp only [List.length_append, List.length_cons]
    omega
  rw [hF]
  show cleanLoop _ (d.length + y.length) (cleanStep _ '/' y _ _).1
    (cleanStep _ '/' y _ _).2.1 (cleanStep _ '/' y _ _).2.2 = _
  rw [cleanStep_slash]
  exact cleanLoop_fuel _ (d.length + y.length) y.length y _ _ (by omega) (Nat.le_refl _)

/-- The path `d / e` is cleaned to the cleaned `d`, the slash it needs, and `e`,
for an element `e` of at least three bytes without `/`. -/
theorem cleanState_element (d e : List Char) (hd : d ≠ []) (hlen : 3 ≤ e.length)
    (hno : '/' ∉ e) :
    (cleanState (d ++ '/' :: e)).1 =
      e.reverse ++ addSlash (d.head? = some '/') (cleanState d).1 := by
  rw [cleanState_append d e hd, cleanLoop_element _ _ e _ _ hlen hno (Nat.le_refl _)]

/-- The path `d /` is cleaned to what `d` is cleaned to. -/
theorem Clean_trailing_slash (d : List Char) (hd : d ≠ []) :
    Clean ⟨d ++ ['/']⟩ = Clean ⟨d⟩ := by
  rw [Clean_mk _ (by simp), Clean_mk d hd, cleanState_append d [] hd, cleanLoop_nil]

theorem EndsSlash_split (l : List Char) :
    ∃ n1 n2, l = n1 ++ n2 ∧ EndsSlash n1 ∧ '/' ∉ n2 := by
  induction l with
  | nil => exact ⟨[], [], rfl, Or.inl rfl, by simp⟩
  | cons a l ih =>
    obtain ⟨n1, n2, hl, h1, h2⟩ := ih
    rcases h1 with h1 | ⟨x0, h1⟩
    · subst h1
      by_cases ha : a = '/'
      · exact ⟨['/'], n2, by simp [hl, ha], Or.inr ⟨[], rfl⟩, h2⟩
      · refine ⟨[], a :: n2, by simp [hl], Or.inl rfl, ?_⟩
        simp only [List.mem_cons, not_or]
        exact ⟨fun h => ha h.symm, h2⟩
    · exact ⟨a :: n1, n2, by simp [hl], Or.inr ⟨a :: x0, by simp [h1]⟩, h2⟩

/-- A path whose last element `e` has at least three bytes is cleaned to a
path that ends with `e`. -/
theorem Clean_last_element (x e : List Char) (hx : EndsSlash x) (hlen : 3 ≤ e.length)
    (hno : '/' ∉ e) : ∃ pre : List Char, Clean ⟨x ++ e⟩ = ⟨pre ++ e⟩ := by
  have hne : e ≠ [] := by
    intro h
    simp [h] at hlen
  have hstate : ∃ o, (cleanState (x ++ e)).1 = e.reverse ++ o := by
    rcases hx with hx | ⟨x0, hx⟩
    · subst hx
      have hh : e.head? ≠ some '/' := by
        cases e with
        | nil => simp
        | cons a e2 =>
          simp only [List.mem_cons, not_or] at hno
          simpa using fun h => hno.1 h.symm
      refine ⟨addSlash false [], ?_⟩
      unfold cleanState
      simp only [List.nil_append, hh, decide_False, if_false, Bool.false_eq_true]
      rw [cleanLoop_element false _ e _ _ hlen hno (Nat.le_refl _)]
    · subst hx
      cases x0 with
      | nil =>
        refine ⟨addSlash true ['/'], ?_⟩
        unfold cleanState
        simp only [List.nil_append, List.singleton_append, List.head?_cons, decide_True, if_true,
          List.tail_cons, List.length_cons]
        rw [cleanLoop_element true _ e _ _ hlen hno (Nat.le_succ _)]
      | cons a x1 =>
        refine ⟨addSlash ((a :: x1).head? = some '/') (cleanState (a :: x1)).1, ?_⟩
        have := cleanState_element (a :: x1) e (List.cons_ne_nil _ _) hlen hno
        simpa using this
  obtain ⟨o, ho⟩ := hstate
  refine ⟨o.reverse, ?_⟩
  rw [Clean_mk _ (by simp [hne]), ho]
  have : (e.reverse ++ o).length ≠ 0 := by
    simp only [List.length_append, List.length_reverse]
    omega
  rw [if_neg this]
  simp

theorem dropWhile_reverse_split (x e : List Char) (hx : EndsSlash x) (hno : '/' ∉ e) :
    ((x ++ e).reverse.dropWhile fun b => b ≠ '/').reverse = x := by
  have hall : ∀ c ∈ e.reverse, (fun b => decide (b ≠ '/')) c = true := by
    intro c hc
    simp only [ne_eq, decide_eq_true_eq]
    exact fun h => hno (h ▸ List.mem_reverse.1 hc)
  rcases hx with hx | ⟨x0, hx⟩
  · subst hx
    simp only [List.nil_append]
    rw [List.dropWhile_eq_nil_iff.2 hall]
    rfl
  · subst hx
    have hr : (x0 ++ ['/'] ++ e).reverse = e.reverse ++ '/' :: x0.reverse := by simp
    rw [hr, dropWhile_append_slash, List.dropWhile_eq_nil_iff.2 hall]
    simp

/-- The value of `path.Join` on a directory and a non-empty element. -/
theorem Join_pair (d e : List Char) (he : e ≠ []) :
    Join [⟨d⟩, ⟨e⟩] = Clean ⟨if d = [] then e else d ++ '/' :: e⟩ := by
  unfold Join
  have hpos : 0 < e.length := List.length_pos.2 he
  have hsize : (List.map String.length [(⟨d⟩ : String), ⟨e⟩]).sum ≠ 0 := by
    simp only [List.map_cons, List.map_nil, List.sum_cons, List.sum_nil, String.length_mk]
    omega
  have hne : (⟨e⟩ : String) ≠ "" := by
    intro h
    exact he (congrArg String.data h)
  cases d with
  | nil =>
    have h0 : (⟨[]⟩ : String) = "" := rfl
    simp [hsize, h0, hne, he]
  | cons a d2 =>
    have hd : (⟨a :: d2⟩ : String) ≠ "" := by
      intro h
      have := congrArg String.data h
      simp at this
    simp only [hsize, if_false, List.foldl_cons, List.foldl_nil, String.empty_append,
      String.length_mk, String.length_empty, hd, hne, ne_eq, not_false_eq_true, or_true, if_true,
      List.length_cons, Nat.zero_lt_succ, true_or, Nat.lt_irrefl, false_or, List.cons_ne_nil]
    congr 1
    apply String.ext
    simp [String.data_append]

/-- Joining a cleaned directory `d` with an element `e` of at least three bytes
without `/`: the result is `e` after `d /` (after `/` alone under the root, and
bare in the directory `.`). -/
theorem Clean_join_clean (d e : List Char) (hclean : Clean ⟨d⟩ = ⟨d⟩) (hlen : 3 ≤ e.length)
    (hno : '/' ∉ e) :
    d ≠ [] ∧
    Clean ⟨d ++ '/' :: e⟩ =
      ⟨(if d = ['/'] then ['/'] else if d = ['.'] then [] else d ++ ['/']) ++ e⟩ := by
  have hd : d ≠ [] := by
    intro h
    subst h
    have := congrArg String.data hclean
    have h2 : (Clean ⟨[]⟩).data = ['.'] := by rfl
    rw [h2] at this
    cases this
  refine ⟨hd, ?_⟩
  have hst := cleanState_element d e hd hlen hno
  have hnz : (e.reverse ++ addSlash (d.head? = some '/') (cleanState d).1).length ≠ 0 := by
    simp only [List.length_append, List.length_reverse]
    omega
  rw [Clean_mk _ (by simp), hst, if_neg hnz]
  rw [Clean_mk d hd] at hclean
  congr 1
  rw [List.reverse_append, List.reverse_reverse]
  congr 1
  by_cases h0 : (cleanState d).1.length = 0
  · rw [if_pos h0] at hclean
    have hdot : d = ['.'] := (congrArg String.data hclean).symm
    subst hdot
    have : (cleanState ['.']).1 = [] := by rfl
    rw [this]
    simp [addSlash]
  · rw [if_neg h0] at hclean
    have hrev : (cleanState d).1.reverse = d := congrArg String.data hclean
    have hS : (cleanState d).1 = d.reverse := by
      have := congrArg List.reverse hrev
      simpa using this
    have hndot : d ≠ ['.'] := by
      intro h
      subst h
      exact h0 (by rfl)
    rw [hS]
    unfold addSlash
    cases d with
    | nil => exact absurd rfl hd
    | cons a d1 =>
      by_cases ha : a = '/'
      · subst ha
        cases d1 with
        | nil => simp
        | cons b d2 => simp
      · have h1 : (a :: d1) ≠ ['/'] := by
          intro h
          simp only [List.cons.injEq] at h
          exact ha h.1
        simp [ha, h1, hndot]

theorem torrentSuffix_facts (n : List Char) (hn : '/' ∉ n) :
    3 ≤ (n ++ ".torrent".data).length ∧ '/' ∉ n ++ ".torrent".data ∧ n ++ ".torrent".data ≠ [] := by
  have h8 : (".torrent" : String).data.length = 8 := by decide
  have hT : '/' ∉ (".torrent" : String).data := by decide
  refine ⟨?_, ?_, ?_⟩
  · simp only [List.length_append, h8]
    omega
  · simp only [List.mem_append, not_or]
    exact ⟨hn, hT⟩
  · intro h
    have := congrArg List.length h
    simp only [List.length_append, h8, List.length_nil] at this
    omega

/-- C9, as amended: `torrentPath` returns `path.Join(dir, name + ".torrent")`,
always a path ending in `.torrent`; when `dir` is a cleaned path and the name
contains no `/`, this is `dir/name.torrent` (`/name.torrent` under the root,
`name.torrent` in the directory `.`), a file whose parent directory is `dir`. -/
theorem torrentPath_join (dir infohashHex : String) (tor : torrent) :
    (∃ pre : String, (torrentPath dir infohashHex tor).1 = pre ++ ".torrent") ∧
      (Clean dir = dir → '/' ∉ tor.name.data →
        torrentPath dir infohashHex tor =
            ((if dir = "/" then "/" else if dir = "." then "" else dir ++ "/") ++
              tor.name ++ ".torrent", dir) ∧
          Dir (torrentPath dir infohashHex tor).1 = dir) := by
  obtain ⟨d⟩ := dir
  have he : tor.name ++ ".torrent" = ⟨tor.name.data ++ ".torrent".data⟩ := by
    apply String.ext
    simp [String.data_append]
  have hjoin : (torrentPath ⟨d⟩ infohashHex tor).1 =
      Clean ⟨if d = [] then tor.name.data ++ ".torrent".data
        else d ++ '/' :: (tor.name.data ++ ".torrent".data)⟩ := by
    unfold torrentPath
    rw [he]
    exact Join_pair d _ (by
      intro h
      have := congrArg List.length h
      have h8 : (".torrent" : String).data.length = 8 := by decide
      simp only [List.length_append, h8, List.length_nil] at this
      omega)
  refine ⟨?_, ?_⟩
  · obtain ⟨n1, n2, hsplit, h1, h2⟩ := EndsSlash_split tor.name.data
    obtain ⟨hlen, hno, _⟩ := torrentSuffix_facts n2 h2
    have hx : EndsSlash (if d = [] then n1 else d ++ '/' :: n1) := by
      by_cases hd : d = []
      · simpa [hd] using h1
      · simp only [hd, if_false]
        rcases h1 with h1 | ⟨x0, h1⟩
        · exact Or.inr ⟨d, by simp [h1]⟩
        · exact Or.inr ⟨d ++ '/' :: x0, by simp [h1]⟩
    have hshape : (if d = [] then tor.name.data ++ ".torrent".data
        else d ++ '/' :: (tor.name.data ++ ".torrent".data)) =
        (if d = [] then n1 else d ++ '/' :: n1) ++ (n2 ++ ".torrent".data) := by
      rw [hsplit]
      by_cases hd : d = [] <;> simp [hd]
    obtain ⟨pre, hpre⟩ := Clean_last_element _ _ hx hlen hno
    refine ⟨⟨pre ++ n2⟩, ?_⟩
    rw [hjoin, hshape, hpre]
    apply String.ext
    simp [String.data_append]
  · intro hclean hname
    obtain ⟨hlen, hno, _⟩ := torrentSuffix_facts tor.name.data hname
    obtain ⟨hd, hcl⟩ := Clean_join_clean d _ hclean hlen hno
    have hfst : (torrentPath ⟨d⟩ infohashHex tor).1 =
        ⟨(if d = ['/'] then ['/'] else if d = ['.'] then [] else d ++ ['/']) ++
          (tor.name.data ++ ".torrent".data)⟩ := by
      rw [hjoin, if_neg hd, hcl]
    have hslash : ((⟨d⟩ : String) = "/") ↔ d = ['/'] := String.ext_iff
    have hdot : ((⟨d⟩ : String) = ".") ↔ d = ['.'] := String.ext_iff
    refine ⟨?_, ?_⟩
    · have h2 : (torrentPath ⟨d⟩ infohashHex tor).2 = ⟨d⟩ := rfl
      refine Prod.ext ?_ h2
      rw [hfst]
      apply String.ext
      by_cases h1 : d = ['/']
      · subst h1
        simp [String.data_append]
      · by_cases h3 : d = ['.']
        · subst h3
          simp [String.data_append]
        · simp [String.data_append, hslash, hdot, h1, h3]
    · rw [hfst]
      unfold Dir
      have hpre : EndsSlash (if d = ['/'] then ['/'] else if d = ['.'] then [] else d ++ ['/']) := by
        by_cases h1 : d = ['/']
        · exact Or.inr ⟨[], by simp [h1]⟩
        · by_cases h3 : d = ['.']
          · exact Or.inl (by simp [h1, h3])
          · exact Or.inr ⟨d, by simp [h1, h3]⟩
      simp only [dropWhile_reverse_split _ _ hpre hno]
      by_cases h1 : d = ['/']
      · simp only [h1, if_true]
        rw [h1] at hclean
        exact hclean
      · by_cases h3 : d = ['.']
        · subst h3
          rfl
        · simp only [h1, h3, if_false]
          rw [Clean_trailing_slash d hd]
          exact hclean

/-- Witness of C9 as amended: the sample torrent `ubuntu.iso` in the archive
directory `/home/u/torrents`. -/
theorem torrentPath_join_witness :
    (∃ pre : String, (torrentPath "/home/u/torrents" "0123456789abcdef0123456789abcdef01234567"
        sampleTorrent).1 = pre ++ ".torrent") ∧
      torrentPath "/home/u/torrents" "0123456789abcdef0123456789abcdef01234567" sampleTorrent =
        ((if ("/home/u/torrents" : String) = "/" then "/"
            else if ("/home/u/torrents" : String) = "." then "" else "/home/u/torrents" ++ "/") ++
          sampleTorrent.name ++ ".torrent", "/home/u/torrents") ∧
      Dir (torrentPath "/home/u/torrents" "0123456789abcdef0123456789abcdef01234567"
        sampleTorrent).1 = "/home/u/torrents" ∧
      torrentPath "/home/u/torrents" "0123456789abcdef0123456789abcdef01234567" sampleTorrent =
        ("/home/u/torrents/ubuntu.iso.torrent", "/home/u/torrents") :=
  ⟨(torrentPath_join "/home/u/torrents" "0123456789abcdef0123456789abcdef01234567"
      sampleTorrent).1,
    ((torrentPath_join "/home/u/torrents" "0123456789abcdef0123456789abcdef01234567"
      sampleTorrent).2 (by rfl) (by decide)).1,
    ((torrentPath_join "/home/u/torrents" "0123456789abcdef0123456789abcdef01234567"
      sampleTorrent).2 (by rfl) (by decide)).2,
    by rfl⟩

/-- Counterexample to C9 as stated: in the cleaned absolute directory
`/home/u/torrents` the name `../../etc/cron.d/job` gives the path
`/home/etc/cron.d/job.torrent`, whose parent directory is not the archive
directory.  (For a directory that is not cleaned, such as `torrents/`, the
parent directory of the result is the cleaned `torrents`.) -/
theorem torrentPath_escape_counterexample :
    Clean "/home/u/torrents" = "/home/u/torrents" ∧
    torrentPath "/home/u/torrents" "0123456789abcdef0123456789abcdef01234567" escapingTorrent =
      ("/home/etc/cron.d/job.torrent", "/home/u/torrents") ∧
    Dir (torrentPath "/home/u/torrents" "0123456789abcdef0123456789abcdef01234567"
      escapingTorrent).1 = "/home/etc/cron.d" ∧
    ("/home/etc/cron.d" : String) ≠ "/home/u/torrents" ∧
    Dir (torrentPath "torrents/" "0123456789abcdef0123456789abcdef01234567"
      sampleTorrent).1 = "torrents" ∧
    ("torrents" : String) ≠ "torrents/" := by
  refine ⟨by rfl, by rfl, by rfl, by decide, by rfl, by decide⟩

end Torsniff
